import Mathlib

/-!
Shallow embedding of the orchestrator repository (Go) in Lean 4.

Strings are modelled as lists of characters (`Str`).  Line scanning follows
Go's `bufio.ScanLines` (split on a newline, strip one trailing carriage
return per token, drop the final empty token); the scanner's 64 KiB token
limit is not modelled.  The regular expressions used by the diff utilities
are small and are embedded as hand-written deterministic matchers over
character lists; all of them operate on scanner tokens, which never contain
a newline.  External effects (process execution, JSON decoding,
wall-clock time) enter the model as explicit parameters.
-/

set_option maxRecDepth 100000

namespace Orchestrator

/-- Go strings, modelled as lists of characters. -/
abbrev Str := List Char

/-- Go `unicode.IsSpace` on the Latin-1 range (the only code points the
classifier is applied to in this development). -/
def isGoSpace (c : Char) : Bool :=
  c = ' ' || c = '\t' || c = '\n' || c = '\x0b' || c = '\x0c' || c = '\r'
    || c = '\x85' || c = '\xa0'

/-- Go `strings.HasPrefix line p`. -/
def startsWith (line p : Str) : Bool := p.isPrefixOf line

/-- Go `strings.Contains hay needle`. -/
def containsStr (hay needle : Str) : Bool :=
  needle.isPrefixOf hay ||
    match hay with
    | [] => false
    | _ :: t => containsStr t needle

/-- Go `strings.TrimSpace`. -/
def trimSpace (s : Str) : Str :=
  ((s.dropWhile isGoSpace).reverse.dropWhile isGoSpace).reverse

/-- Helper for `fieldsOf`: `cur` is the current token, reversed. -/
def fieldsAux : Str → Str → List Str
  | [], cur => if cur = [] then [] else [cur.reverse]
  | c :: rest, cur =>
    if isGoSpace c then
      if cur = [] then fieldsAux rest [] else cur.reverse :: fieldsAux rest []
    else fieldsAux rest (c :: cur)

/-- Go `strings.Fields`: whitespace-separated tokens, no empties. -/
def fieldsOf (s : Str) : List Str := fieldsAux s []

/-- Go `strings.Split s "\n"`: always at least one piece. -/
def splitNL : Str → List Str
  | [] => [[]]
  | c :: rest =>
    let ps := splitNL rest
    if c = '\n' then [] :: ps
    else
      match ps with
      | [] => [[c]]
      | p :: ps2 => (c :: p) :: ps2

/-- `dropCR` from `bufio.ScanLines`: strip one trailing carriage return. -/
def dropCR (l : Str) : Str :=
  if l.getLast? = some '\r' then l.dropLast else l

/-- The token sequence a `bufio.Scanner` with `ScanLines` produces for `s`. -/
def linesOf (s : Str) : List Str :=
  (if (splitNL s).getLast? = some [] then (splitNL s).dropLast
   else splitNL s).map dropCR

/-- Reassembly used by the diff utilities: each emitted line is written
followed by a newline (`strings.Builder` + `WriteString (line + "\n")`). -/
def unlines (ls : List Str) : Str :=
  (ls.map (fun l => l ++ ['\n'])).flatten

/-! ### Embedded regular expressions of `internal/gitutil` (diff.go)

Each matcher reproduces the corresponding Go `regexp` on newline-free
input (scanner tokens).  RE2 character classes: `\d` is `[0-9]`,
`\s` is `[\t\n\f\r ]`, `.` is any character except a newline. -/

/-- RE2 `\s`. -/
def isReSpace (c : Char) : Bool :=
  c = '\t' || c = '\n' || c = '\x0c' || c = '\r' || c = ' '

/-- RE2 `\d`. -/
def isDigitC (c : Char) : Bool := '0' ≤ c && c ≤ '9'

/-- `[0-9a-f]`. -/
def isHexC (c : Char) : Bool := isDigitC c || ('a' ≤ c && c ≤ 'f')

/-- Consume `\d+` (maximal munch; every use is followed by a non-digit
literal, so this equals the backtracking semantics). -/
def chompDigits : Str → Option Str
  | c :: rest => if isDigitC c then some (rest.dropWhile isDigitC) else none
  | [] => none

/-- Consume `[0-9a-f]+` (maximal munch; followed by `\.` below, and `.`
is not a hex digit, so this equals the backtracking semantics). -/
def chompHex : Str → Option Str
  | c :: rest => if isHexC c then some (rest.dropWhile isHexC) else none
  | [] => none

/-- Consume exactly `n` digits. -/
def digitsN : Nat → Str → Option Str
  | 0, s => some s
  | _ + 1, [] => none
  | n + 1, c :: rest => if isDigitC c then digitsN n rest else none

/-- Consume one literal character. -/
def expectC (c : Char) : Str → Option Str
  | d :: rest => if d = c then some rest else none
  | [] => none

/-- Consume `(?:,\d+)?`.  If the comma is present but not followed by a
digit the group matches empty; since every use is followed by a literal
that is not a comma, this equals the backtracking semantics. -/
def optCommaDigits (s : Str) : Option Str :=
  match s with
  | ',' :: rest =>
    match chompDigits rest with
    | some r => some r
    | none => some s
  | _ => some s

/-- `\d{4}-\d{2}-\d{2} \d{2}:\d{2}:\d{2}` starting at the head of `s`. -/
def dateTimeAt (s : Str) : Bool :=
  ((((((((((digitsN 4 s).bind (expectC '-')).bind (digitsN 2)).bind
    (expectC '-')).bind (digitsN 2)).bind (expectC ' ')).bind
    (digitsN 2)).bind (expectC ':')).bind (digitsN 2)).bind
    (expectC ':')).bind (digitsN 2) |>.isSome

/-- `.*\s+` followed by the date-time pattern, anywhere in `s`: some
position of `s` holds a whitespace character immediately followed by the
date-time pattern. -/
def hasWsDateTime : Str → Bool
  | [] => false
  | c :: rest => (isReSpace c && dateTimeAt rest) || hasWsDateTime rest

/-- `timestampRegex`: `^(\+\+\+|---) .*\s+\d{4}-\d{2}-\d{2} \d{2}:\d{2}:\d{2}`. -/
def tsMatch (l : Str) : Bool :=
  (startsWith l ("+++ ".toList) || startsWith l ("--- ".toList))
    && hasWsDateTime (l.drop 4)

/-- `indexLineRegex`: `^index [0-9a-f]+\.\.[0-9a-f]+`. -/
def idxMatch (l : Str) : Bool :=
  startsWith l ("index ".toList)
    && ((((chompHex (l.drop 6)).bind (expectC '.')).bind
          (expectC '.')).bind chompHex).isSome

/-- `hunkHeaderRegex`: `^@@ -\d+(?:,\d+)? \+\d+(?:,\d+)? @@`. -/
def hunkMatch (l : Str) : Bool :=
  startsWith l ("@@ -".toList)
    && ((((((((chompDigits (l.drop 4)).bind optCommaDigits).bind
          (expectC ' ')).bind (expectC '+')).bind chompDigits).bind
          optCommaDigits).bind (expectC ' ')).bind
          fun r => ((expectC '@' r).bind (expectC '@'))).isSome

/-- The literal prefix of a file header line. -/
def hdrPre : Str := "diff --git a/".toList

/-- The candidate split positions of `fileHeaderRegex`'s tail
`(.+) b/(.+)$` on `R`: indices `i` with nonempty `R[:i]`, ` b/` at `i`,
and a nonempty remainder after it. -/
def headerSplitIdx (R : Str) : Option Nat :=
  ((List.range R.length).filter
    (fun i => 0 < i && startsWith (R.drop i) (" b/".toList)
      && i + 3 < R.length)).max?

/-- `fileHeaderRegex` (`^diff --git a/(.+) b/(.+)$`) with its submatches:
the greedy (leftmost-longest first group) split, as
`FindStringSubmatch` returns it. -/
def fileHeaderSplit (l : Str) : Option (Str × Str) :=
  if startsWith l hdrPre then
    let R := l.drop 13
    match headerSplitIdx R with
    | some i => some (R.take i, R.drop (i + 3))
    | none => none
  else none

/-- `fileHeaderRegex.MatchString`. -/
def fileHeaderMatch (l : Str) : Bool := (fileHeaderSplit l).isSome

/-! ### Diff utilities (`internal/gitutil`) -/

/-- `gitutil.DiffStats`. -/
structure DiffStats where
  FilesChanged : Nat := 0
  LinesAdded : Nat := 0
  LinesRemoved : Nat := 0
  HasConflicts : Bool := false
deriving Repr, DecidableEq

/-- `NoNewlineMarker`. -/
def noNewlineMarker : Str := "\\ No newline at end of file".toList

/-- One iteration of the `GetDiffStats` scanner loop; the `Bool`
component is the `inFile` flag. -/
def statsStep (acc : DiffStats × Bool) (l : Str) : DiffStats × Bool :=
  let st := acc.1
  let inFile := acc.2
  if fileHeaderMatch l then
    ({ st with FilesChanged := st.FilesChanged + 1 }, true)
  else if inFile then
    let st1 :=
      if startsWith l ['+'] && !startsWith l ("+++".toList) then
        { st with LinesAdded := st.LinesAdded + 1 }
      else if startsWith l ['-'] && !startsWith l ("---".toList) then
        { st with LinesRemoved := st.LinesRemoved + 1 }
      else st
    let st2 :=
      if startsWith l ("<<<<<<<".toList) || startsWith l ("=======".toList)
          || startsWith l (">>>>>>>".toList) then
        { st1 with HasConflicts := true }
      else st1
    (st2, inFile)
  else (st, inFile)

/-- `gitutil.GetDiffStats`. -/
def getDiffStats (diff : Str) : DiffStats :=
  if diff = [] then {}
  else ((linesOf diff).foldl statsStep ({}, false)).1

/-- The lines `NormalizeDiff` emits for one scanned line: a timestamp or
index line is skipped; a file header whose two paths are equal is
rewritten to canonical form; everything else is kept as is. -/
def normLine (l : Str) : List Str :=
  if tsMatch l then []
  else if idxMatch l then []
  else
    match fileHeaderSplit l with
    | some (m1, m2) =>
      if m1 = m2 then [hdrPre ++ m1 ++ " b/".toList ++ m1] else [l]
    | none => [l]

/-- `gitutil.NormalizeDiff`. -/
def normalizeDiff (diff : Str) : Str :=
  unlines (((linesOf diff).map normLine).flatten)

/-- The lines `RemoveContextLines` emits for one scanned line.  Note that
an added/removed line that also contains the no-newline marker is
written twice, mirroring the two non-exclusive `if` statements in the
source. -/
def redLine (l : Str) : List Str :=
  if fileHeaderMatch l || hunkMatch l || startsWith l ("+++".toList)
      || startsWith l ("---".toList) then [l]
  else
    (if startsWith l ['+'] || startsWith l ['-'] then [l] else [])
      ++ (if containsStr l noNewlineMarker then [l] else [])

/-- `gitutil.RemoveContextLines`. -/
def removeContextLines (diff : Str) : Str :=
  unlines (((linesOf diff).map redLine).flatten)

/-- `gitutil.CompareDiffs`. -/
def compareDiffs (diff1 diff2 : Str) : Bool :=
  removeContextLines (normalizeDiff diff1)
    = removeContextLines (normalizeDiff diff2)

/-! ### Test runner (`internal/core/testrunner.go`) -/

/-- `core.TestResult`.  `Duration` is in abstract clock units. -/
structure TestResult where
  Success : Bool := false
  TotalTests : Nat := 0
  PassedTests : Nat := 0
  FailedTests : Nat := 0
  SkippedTests : Nat := 0
  Duration : Nat := 0
  Output : Str := []
  Error : Str := []
deriving Repr, DecidableEq

/-- Decimal rendering of a Go `%d` verb. -/
def natStr (n : Nat) : Str := Nat.toDigits 10 n

/-- One iteration of the `parseTestResults` line loop.  `decodeAction`
models `json.Unmarshal` followed by the `Action` string assertion on a
`go test -json` line: `none` when unmarshalling fails or the field is
not a string. -/
def parseStep (decodeAction : Str → Option Str) (st : TestResult) (l : Str) :
    TestResult :=
  let st1 :=
    if startsWith l ("ok\t".toList) || startsWith l ("FAIL\t".toList) then
      if startsWith l ("ok\t".toList) then
        { st with TotalTests := st.TotalTests + 1,
                  PassedTests := st.PassedTests + 1 }
      else
        { st with TotalTests := st.TotalTests + 1,
                  FailedTests := st.FailedTests + 1 }
    else st
  if containsStr l ("\"Test\":".toList) then
    match decodeAction l with
    | some a =>
      if a = "pass".toList then
        { st1 with TotalTests := st1.TotalTests + 1,
                   PassedTests := st1.PassedTests + 1 }
      else if a = "fail".toList then
        { st1 with TotalTests := st1.TotalTests + 1,
                   FailedTests := st1.FailedTests + 1 }
      else if a = "skip".toList then
        { st1 with TotalTests := st1.TotalTests + 1,
                   SkippedTests := st1.SkippedTests + 1 }
      else st1
    | none => st1
  else st1

/-- `core.parseTestResults`.  The line split is `strings.Split(output,
"\n")`, not a scanner. -/
def parseTestResults (decodeAction : Str → Option Str) (output : Str)
    (duration : Nat) (runErr : Option Str) : TestResult :=
  let base : TestResult :=
    { Success := runErr.isNone
      Duration := duration
      Output := output
      Error := match runErr with | some e => e | none => [] }
  let st := (splitNL output).foldl (parseStep decodeAction) base
  let st2 :=
    if st.TotalTests = 0 && st.Success then
      { st with TotalTests := 1, PassedTests := 1 }
    else st
  { st2 with Success := st2.Success && st2.FailedTests = 0 }

/-- The error string of `context.DeadlineExceeded`. -/
def deadlineMsg : Str := "context deadline exceeded".toList

/-- `TestRunner.Run`.  The subprocess execution is abstracted by
`cmdErr` (the error of `cmd.Run`, `none` on a clean exit), `output`
(stdout and stderr concatenated), `duration`, and `deadlineFired`
(whether `ctx.Err() == context.DeadlineExceeded` after the run). -/
def runTR (testCommand _worktreePath : Str) (deadlineFired : Bool)
    (cmdErr : Option Str) (output : Str) (duration : Nat)
    (decodeAction : Str → Option Str) : Except Str TestResult :=
  if fieldsOf testCommand = [] then .error ("empty test command".toList)
  else
    let effErr := if deadlineFired then some deadlineMsg else cmdErr
    .ok (parseTestResults decodeAction output duration effErr)

/-- `core.CompareResults` on two non-nil results. -/
def compareResults (before after : TestResult) : Bool × Str :=
  if !before.Success && after.Success then
    (true, "Tests now passing".toList)
  else if !before.Success && !after.Success
      && after.FailedTests < before.FailedTests then
    (true, "Reduced failing tests from ".toList ++ natStr before.FailedTests
      ++ " to ".toList ++ natStr after.FailedTests)
  else if after.PassedTests > before.PassedTests then
    (true, "Increased passing tests from ".toList ++ natStr before.PassedTests
      ++ " to ".toList ++ natStr after.PassedTests)
  else if before.Success && after.Success then
    (false, "No change in test results, all tests still passing".toList)
  else if !before.Success && !after.Success
      && before.FailedTests = after.FailedTests
      && before.PassedTests = after.PassedTests then
    (false, "No change in test results, same failures".toList)
  else if before.Success && !after.Success then
    (false, "Tests now failing, patch introduces regression".toList)
  else
    (false, "No significant change in test results".toList)

/-- `core.calculateScore`. -/
def calculateScore (improved : Bool) (diffStats : DiffStats)
    (testResults : TestResult) : Int :=
  let s1 : Int := if improved then 100 else 0
  let s2 := if testResults.Success then s1 + 50 else s1
  let s3 := s2 + (testResults.PassedTests : Int) * 5
  let s4 := s3 - (testResults.FailedTests : Int) * 10
  let totalChanges := diffStats.LinesAdded + diffStats.LinesRemoved
  let s5 :=
    if 0 < totalChanges ∧ totalChanges ≤ 10 then s4 + 5
    else if 50 < totalChanges then s4 - 5
    else s4
  if testResults.Success ∧ totalChanges < 20 then s5 + 10 else s5

/-! ### Events and the CLI adapter (`internal/protocol`, adapter `cli`) -/

/-- `protocol.Event`, restricted to the fields the adapter logic reads or
writes.  The wall-clock timestamp is not modelled; the payload is kept
as the two strings of `protocol.ErrorPayload` (empty when absent).  The
Go field `Type` is called `typ` here (`Type` is a Lean keyword). -/
structure EventRec where
  typ : Str := []
  AgentID : Str := []
  SequenceNum : Int := 0
  PayloadMessage : Str := []
  PayloadCode : Str := []
deriving Repr, DecidableEq

/-- One iteration of the stdout loop in the cli adapter's `Start`
goroutine.  `unmarshal` models `protocol.Unmarshal` on one line
(`.error e` carries the error text); the accumulator is the emitted
events so far and the local `seq` counter. -/
def cliStep (id : Str) (unmarshal : Str → Except Str EventRec)
    (acc : List EventRec × Int) (line : Str) : List EventRec × Int :=
  let out := acc.1
  let seq := acc.2
  match unmarshal line with
  | .error e =>
    let errorEvent : EventRec :=
      { typ := "error".toList, AgentID := id, SequenceNum := seq
        PayloadMessage := "Failed to parse output: ".toList ++ e
        PayloadCode := "parse_error".toList }
    (out ++ [errorEvent], seq + 1)
  | .ok ev =>
    let ev1 := if ev.AgentID = [] then { ev with AgentID := id } else ev
    if ev1.SequenceNum = 0 then
      (out ++ [{ ev1 with SequenceNum := seq }], seq + 1)
    else (out ++ [ev1], seq)

/-- The events the cli adapter emits for a finite sequence of stdout
lines (the scanner loop of `Start`, before the post-stream error
handling). -/
def cliProcess (id : Str) (unmarshal : Str → Except Str EventRec)
    (lines : List Str) : List EventRec :=
  (lines.foldl (cliStep id unmarshal) ([], 1)).1

/-- Strict increase of a sequence-number list. -/
def strictIncr : List Int → Bool
  | [] => true
  | [_] => true
  | a :: b :: r => a < b && strictIncr (b :: r)

/-- The first element, when present, is `1`. -/
def startsAtOne : List Int → Bool
  | [] => true
  | n :: _ => n = 1

/-! ### Arbitrator (`internal/core/testrunner.go`, arbitrator part) -/

/-- `core.PatchResult`. -/
structure PatchResult where
  AgentID : Str
  Diff : Str
  Stats : DiffStats := {}
  TestResults : Option TestResult := none
  Events : List EventRec := []
  Score : Int := 0
  Reason : Str := []
deriving Repr, DecidableEq

/-- What one `EvaluatePatch` call does: return a result, return an
error, or crash with the nil-pointer panic raised when `CompareResults`
reads `before.Success` off a nil baseline. -/
inductive EvalOutcome where
  | ok (r : PatchResult)
  | err (msg : Str)
  | nilPanic
deriving Repr, DecidableEq

/-- Outcome of `EvaluatePatch` together with whether the test runner was
invoked on the worktree. -/
structure EvalResult where
  outcome : EvalOutcome
  ranTests : Bool
deriving Repr, DecidableEq

/-- `Arbitrator.EvaluatePatch`.  The arbitrator's stored
`baseTestResults` pointer is `baseTestResults` (`none` models nil); the
test-runner invocation on the worktree is abstracted by `runOutcome`. -/
def evaluatePatch (baseTestResults : Option TestResult) (agentID diff : Str)
    (runOutcome : Except Str TestResult) (events : List EventRec) :
    EvalResult :=
  if trimSpace diff = [] then
    ⟨.ok { AgentID := agentID, Diff := [], Score := 0
           Reason := "No changes made".toList, Events := events }, false⟩
  else
    let diffStats := getDiffStats diff
    if diffStats.HasConflicts then
      ⟨.ok { AgentID := agentID, Diff := diff, Stats := diffStats
             Score := -10, Reason := "Patch contains merge conflicts".toList
             Events := events }, false⟩
    else
      match runOutcome with
      | .error e =>
        ⟨.err ("failed to run tests on patched code: ".toList ++ e), true⟩
      | .ok testResults =>
        match baseTestResults with
        | none => ⟨.nilPanic, true⟩
        | some base =>
          let cmp := compareResults base testResults
          let score := calculateScore cmp.1 diffStats testResults
          ⟨.ok { AgentID := agentID, Diff := diff, Stats := diffStats
                 TestResults := some testResults, Events := events
                 Score := score, Reason := cmp.2 }, true⟩

instance {ε α : Type} [DecidableEq ε] [DecidableEq α] :
    DecidableEq (Except ε α)
  | .ok a, .ok b =>
    decidable_of_iff (a = b) ⟨by rintro rfl; rfl, fun h => by injection h⟩
  | .error a, .error b =>
    decidable_of_iff (a = b) ⟨by rintro rfl; rfl, fun h => by injection h⟩
  | .ok _, .error _ => .isFalse (fun h => by injection h)
  | .error _, .ok _ => .isFalse (fun h => by injection h)

/-- `core.PatchDetails` plus the abstracted run of the test command in
its worktree. -/
structure Cand where
  agentID : Str
  WorktreePath : Str := []
  Diff : Str
  Events : List EventRec := []
  runOutcome : Except Str TestResult
deriving Repr, DecidableEq

/-- The `EvaluatePatch` call `SelectBestPatch` makes for one candidate. -/
def evalCand (baseline : Option TestResult) (c : Cand) : EvalResult :=
  evaluatePatch baseline c.agentID c.Diff c.runOutcome c.Events

/-- Outcome of `SelectBestPatch`. -/
inductive SelOutcome where
  | ok (r : PatchResult)
  | err (msg : Str)
  | nilPanic
deriving Repr, DecidableEq

/-- The evaluation loop of `SelectBestPatch`: errors are skipped, a
panic aborts the call. -/
def gatherResults (baseline : Option TestResult) :
    List Cand → Except Unit (List PatchResult)
  | [] => .ok []
  | c :: rest =>
    match evalCand baseline c with
    | ⟨.nilPanic, _⟩ => .error ()
    | ⟨.err _, _⟩ => gatherResults baseline rest
    | ⟨.ok r, _⟩ => (gatherResults baseline rest).map (r :: ·)

/-- The descending-score order `sort.Slice` is called with. -/
def scoreRel (a b : PatchResult) : Prop := b.Score ≤ a.Score

instance : DecidableRel scoreRel :=
  fun a b => inferInstanceAs (Decidable (b.Score ≤ a.Score))

instance : IsTotal PatchResult scoreRel :=
  ⟨fun a b => (le_total a.Score b.Score).symm⟩

instance : IsTrans PatchResult scoreRel := ⟨fun _ _ _ h1 h2 => le_trans h2 h1⟩

/-- `Arbitrator.SelectBestPatch` on candidates listed in iteration
order of the Go map (the order is quantified over in the theorems). -/
def selectBestPatch (baseline : Option TestResult) (cands : List Cand) :
    SelOutcome :=
  if cands = [] then .err ("no patches to evaluate".toList)
  else
    match gatherResults baseline cands with
    | .error _ => .nilPanic
    | .ok results =>
      if results = [] then .err ("all patches failed evaluation".toList)
      else
        match results.insertionSort scoreRel with
        | r :: _ => .ok r
        | [] => .err ("all patches failed evaluation".toList)

/-! ### Configuration (`internal/core/config.go`) -/

/-- `core.AgentConfig`.  The free-form `Config` map is not consulted by
validation and is omitted; the Go field `Type` is called `typ`. -/
structure AgentConfig where
  ID : Str
  typ : Str
deriving Repr, DecidableEq

/-- `core.Config`. -/
structure Config where
  WorkingDir : Str
  Agents : List AgentConfig
  TestCommand : Str := []
  TimeoutSeconds : Int := 0
deriving Repr, DecidableEq

/-- The indexed agent loop of `validateConfig`: the first error found. -/
def firstAgentError : List AgentConfig → Nat → Option Str
  | [], _ => none
  | a :: rest, i =>
    if a.ID = [] then
      some ("agent at index ".toList ++ natStr i ++ " is missing ID".toList)
    else if a.typ = [] then
      some ("agent '".toList ++ a.ID ++ "' is missing type".toList)
    else if a.typ ≠ "http".toList ∧ a.typ ≠ "cli".toList then
      some ("agent '".toList ++ a.ID ++ "' has invalid type '".toList
        ++ a.typ ++ "', must be 'http' or 'cli'".toList)
    else firstAgentError rest (i + 1)

/-- `core.validateConfig`.  The Go function mutates `cfg` (defaulting
`TimeoutSeconds`) and returns an error; here the updated configuration
is returned on success. -/
def validateConfig (cfg : Config) : Except Str Config :=
  if cfg.WorkingDir = [] then .error ("working_dir is required".toList)
  else if cfg.Agents = [] then
    .error ("at least one agent must be configured".toList)
  else
    match firstAgentError cfg.Agents 0 with
    | some e => .error e
    | none =>
      if cfg.TimeoutSeconds ≤ 0 then .ok { cfg with TimeoutSeconds := 300 }
      else .ok cfg

/-! ### Worktree manager (`internal/gitutil`, worktree part) -/

/-- `gitutil.randomString`: despite its name it is deterministic,
`charset[i % len(charset)]` for each position. -/
def randomString (length : Nat) : Str :=
  let charset := "abcdefghijklmnopqrstuvwxyz0123456789".toList
  (List.range length).map (fun i => charset.getD (i % charset.length) 'a')

/-- The path `WorktreeManager.CreateWorktree` builds for an agent:
`filepath.Join(workingDir, "worktree-<agentID>-<randomString 8>")`,
for a clean working directory without a trailing separator. -/
def createWorktreePath (workingDir agentID : Str) : Str :=
  workingDir ++ "/worktree-".toList ++ agentID ++ "-".toList
    ++ randomString 8

/-! ## Basic lemmas about the string model -/

theorem isPrefixOf_self (l : Str) : l.isPrefixOf l = true := by
  induction l with
  | nil => rfl
  | cons c t ih => simp [List.isPrefixOf, ih]

theorem containsStr_self (l : Str) : containsStr l l = true := by
  cases l <;> simp [containsStr, isPrefixOf_self]

theorem subset_of_isPrefixOf {p l : Str} (h : p.isPrefixOf l = true) :
    ∀ {c}, c ∈ p → c ∈ l := by
  intro c hc
  exact ((List.isPrefixOf_iff_prefix.mp h).subset) hc

theorem splitNL_ne_nil (s : Str) : splitNL s ≠ [] := by
  cases s with
  | nil => simp [splitNL]
  | cons c rest =>
    simp only [splitNL]
    split
    · simp
    · split <;> simp

theorem mem_splitNL_subset :
    ∀ {s p : Str}, p ∈ splitNL s → ∀ {c}, c ∈ p → c ∈ s := by
  intro s
  induction s with
  | nil =>
    intro p hp c hc
    simp [splitNL] at hp
    subst hp
    simp at hc
  | cons a rest ih =>
    intro p hp c hc
    rcases hs : splitNL rest with _ | ⟨q, qs⟩
    · exact absurd hs (splitNL_ne_nil rest)
    simp only [splitNL, hs] at hp
    rw [List.mem_cons]
    by_cases ha : a = '\n'
    · rw [if_pos ha, List.mem_cons] at hp
      rcases hp with rfl | hp
      · exact absurd hc (List.not_mem_nil c)
      · exact Or.inr (ih (hs.symm ▸ hp) hc)
    · rw [if_neg ha, List.mem_cons] at hp
      rcases hp with rfl | hp
      · rw [List.mem_cons] at hc
        rcases hc with rfl | hc
        · exact Or.inl rfl
        · exact Or.inr (ih (hs.symm ▸ List.mem_cons_self q qs) hc)
      · exact Or.inr (ih (hs.symm ▸ List.mem_cons_of_mem q hp) hc)

theorem mem_splitNL_no_nl :
    ∀ {s p : Str}, p ∈ splitNL s → '\n' ∉ p := by
  intro s
  induction s with
  | nil =>
    intro p hp
    simp [splitNL] at hp
    subst hp
    simp
  | cons a rest ih =>
    intro p hp
    rcases hs : splitNL rest with _ | ⟨q, qs⟩
    · exact absurd hs (splitNL_ne_nil rest)
    simp only [splitNL, hs] at hp
    by_cases ha : a = '\n'
    · rw [if_pos ha, List.mem_cons] at hp
      rcases hp with rfl | hp
      · exact List.not_mem_nil '\n'
      · exact ih (hs.symm ▸ hp)
    · rw [if_neg ha, List.mem_cons] at hp
      rcases hp with rfl | hp
      · intro hmem
        rw [List.mem_cons] at hmem
        rcases hmem with heq | hmem
        · exact ha heq.symm
        · exact ih (hs.symm ▸ List.mem_cons_self q qs) hmem
      · exact ih (hs.symm ▸ List.mem_cons_of_mem q hp)

theorem dropCR_subset {l : Str} : ∀ {c}, c ∈ dropCR l → c ∈ l := by
  intro c hc
  unfold dropCR at hc
  split at hc
  · exact List.dropLast_subset l hc
  · exact hc

theorem mem_linesOf_subset {s l : Str} (h : l ∈ linesOf s) :
    ∀ {c}, c ∈ l → c ∈ s := by
  intro c hc
  unfold linesOf at h
  simp only [List.mem_map] at h
  obtain ⟨q, hq, rfl⟩ := h
  have hq2 : q ∈ splitNL s := by
    split at hq
    · exact List.dropLast_subset _ hq
    · exact hq
  exact mem_splitNL_subset hq2 (dropCR_subset hc)

theorem mem_linesOf_no_nl {s l : Str} (h : l ∈ linesOf s) : '\n' ∉ l := by
  intro hc
  unfold linesOf at h
  simp only [List.mem_map] at h
  obtain ⟨q, hq, rfl⟩ := h
  have hq2 : q ∈ splitNL s := by
    split at hq
    · exact List.dropLast_subset _ hq
    · exact hq
  exact mem_splitNL_no_nl hq2 (dropCR_subset hc)

theorem splitNL_append_nl {l : Str} (s : Str) (h : '\n' ∉ l) :
    splitNL (l ++ '\n' :: s) = l :: splitNL s := by
  induction l with
  | nil => simp [splitNL]
  | cons c cs ih =>
    have hc : c ≠ '\n' := fun hh => h (hh ▸ List.mem_cons_self c cs)
    have ihs := ih (fun hh => h (List.mem_cons_of_mem c hh))
    simp only [List.cons_append, splitNL, List.append_eq, if_neg hc]
    rw [ihs]

theorem splitNL_unlines (ls : List Str) (h : ∀ l ∈ ls, '\n' ∉ l) :
    splitNL (unlines ls) = ls ++ [[]] := by
  induction ls with
  | nil => simp [unlines, splitNL]
  | cons l rest ih =>
    have : unlines (l :: rest) = l ++ '\n' :: unlines rest := by
      simp [unlines]
    rw [this, splitNL_append_nl _ (h l (List.mem_cons_self l rest)),
      ih (fun x hx => h x (List.mem_cons_of_mem l hx))]
    rfl

/-- Round trip: scanning a reassembled line list recovers it, provided no
line contains a newline or ends with a carriage return. -/
theorem linesOf_unlines (ls : List Str)
    (h : ∀ l ∈ ls, '\n' ∉ l ∧ l.getLast? ≠ some '\r') :
    linesOf (unlines ls) = ls := by
  unfold linesOf
  rw [splitNL_unlines ls (fun l hl => (h l hl).1)]
  have h1 : (ls ++ [([] : Str)]).getLast? = some [] := by
    simp [List.getLast?_concat]
  rw [if_pos h1, List.dropLast_concat]
  have : ∀ l ∈ ls, dropCR l = l := by
    intro l hl
    unfold dropCR
    rw [if_neg (h l hl).2]
  calc ls.map dropCR = ls.map id := List.map_congr_left this
    _ = ls := List.map_id ls

theorem flatten_map_eq_self {α : Type} (f : α → List α) (xs : List α)
    (h : ∀ x ∈ xs, f x = [x]) : (xs.map f).flatten = xs := by
  induction xs with
  | nil => rfl
  | cons x rest ih =>
    simp only [List.map_cons, List.flatten_cons,
      h x (List.mem_cons_self x rest)]
    rw [ih (fun y hy => h y (List.mem_cons_of_mem x hy))]
    rfl

/-! ## Claims about the scoring function and the worktree paths -/

/-- C2: for every triple (improved, diff stats, test result),
`calculateScore` returns exactly the additive integer sum `+100` if
improved, `+50` on success, `+5` per passed test, `-10` per failed
test, `+5` if `0 < Δ ≤ 10`, `-5` if `Δ > 50` (nothing in between), and
`+10` if success and `Δ < 20`, with `Δ` = lines added + lines
removed. -/
theorem calculateScore_formula (improved : Bool) (stats : DiffStats)
    (tr : TestResult) :
    calculateScore improved stats tr =
      (if improved then (100 : Int) else 0)
        + (if tr.Success then 50 else 0)
        + 5 * (tr.PassedTests : Int)
        - 10 * (tr.FailedTests : Int)
        + (if 0 < stats.LinesAdded + stats.LinesRemoved
              ∧ stats.LinesAdded + stats.LinesRemoved ≤ 10 then 5
           else if 50 < stats.LinesAdded + stats.LinesRemoved then -5 else 0)
        + (if tr.Success ∧ stats.LinesAdded + stats.LinesRemoved < 20
           then 10 else 0) := by
  simp only [calculateScore]
  split_ifs <;> omega

/-- C9: `randomString` is in fact deterministic, so the worktree path for
an agent is the same on every call.  The suffix for length 8 is always
`abcdefgh` and two successive `CreateWorktree` calls for the same agent
id therefore collide instead of being distinct. -/
theorem randomString_deterministic :
    randomString 8 = "abcdefgh".toList
      ∧ createWorktreePath "/tmp/work".toList "agent1".toList
          = "/tmp/work/worktree-agent1-abcdefgh".toList := by
  constructor <;> rfl

/-! ## Claims about the test runner -/

theorem parseStep_Success (da : Str → Option Str) (st : TestResult)
    (l : Str) : (parseStep da st l).Success = st.Success := by
  unfold parseStep
  repeat' split
  all_goals rfl

theorem parseStep_Error (da : Str → Option Str) (st : TestResult)
    (l : Str) : (parseStep da st l).Error = st.Error := by
  unfold parseStep
  repeat' split
  all_goals rfl

theorem parseFold_Success (da : Str → Option Str) :
    ∀ (lines : List Str) (st : TestResult),
      ((lines.foldl (parseStep da) st).Success = st.Success)
        ∧ ((lines.foldl (parseStep da) st).Error = st.Error) := by
  intro lines
  induction lines with
  | nil => intro st; exact ⟨rfl, rfl⟩
  | cons l rest ih =>
    intro st
    simp only [List.foldl_cons]
    refine ⟨?_, ?_⟩
    · rw [(ih (parseStep da st l)).1, parseStep_Success]
    · rw [(ih (parseStep da st l)).2, parseStep_Error]

theorem parseTestResults_err (da : Str → Option Str) (output : Str)
    (duration : Nat) (e : Str) :
    (parseTestResults da output duration (some e)).Success = false
      ∧ (parseTestResults da output duration (some e)).Error = e := by
  unfold parseTestResults
  simp only [Option.isNone_some]
  dsimp only
  obtain ⟨hS, hE⟩ := parseFold_Success da (splitNL output)
    { Success := false, Duration := duration, Output := output, Error := e }
  refine ⟨?_, ?_⟩ <;> split <;> simp [hS, hE]

/-- C6: whenever the deadline fires on a `Run` with a non-empty test
command, the runner still returns a `TestResult` (with `Success` false
and an error string containing `context deadline exceeded`) and a nil
error: the deadline error never reaches the caller. -/
theorem runTR_deadline (testCommand worktreePath : Str)
    (cmdErr : Option Str) (output : Str) (duration : Nat)
    (decodeAction : Str → Option Str)
    (hcmd : fieldsOf testCommand ≠ []) :
    ∃ r, runTR testCommand worktreePath true cmdErr output duration
          decodeAction = .ok r
      ∧ r.Success = false
      ∧ containsStr r.Error deadlineMsg = true := by
  refine ⟨parseTestResults decodeAction output duration (some deadlineMsg),
    ?_, ?_, ?_⟩
  · unfold runTR
    rw [if_neg hcmd]
    rfl
  · exact (parseTestResults_err decodeAction output duration deadlineMsg).1
  · rw [(parseTestResults_err decodeAction output duration deadlineMsg).2]
    exact containsStr_self _

/-- Witness for C6 at a concrete invocation. -/
theorem runTR_deadline_witness :
    ∃ r, runTR "go test".toList "/w".toList true none [] 3
          (fun _ => none) = .ok r
      ∧ r.Success = false
      ∧ containsStr r.Error deadlineMsg = true :=
  runTR_deadline _ _ _ _ _ _ (by decide)

/-! ## Claims about `EvaluatePatch` -/

theorem allSpace_of_trimSpace_nil {s : Str} (h : trimSpace s = []) :
    ∀ c ∈ s, isGoSpace c = true := by
  intro c hc
  unfold trimSpace at h
  rw [List.reverse_eq_nil_iff, List.dropWhile_eq_nil_iff] at h
  have h2 : ∀ a ∈ s.dropWhile isGoSpace, isGoSpace a = true := by
    intro a ha
    exact h a (List.mem_reverse.mpr ha)
  rcases (List.mem_append.mp
      (by rw [List.takeWhile_append_dropWhile] at *; exact hc :
        c ∈ s.takeWhile isGoSpace ++ s.dropWhile isGoSpace)) with h3 | h3
  · exact List.mem_takeWhile_imp h3
  · exact h2 c h3

theorem no_header_of_allSpace {l : Str} (h : ∀ c ∈ l, isGoSpace c = true) :
    fileHeaderMatch l = false := by
  by_contra hne
  have hmatch : fileHeaderMatch l = true := by
    cases hfm : fileHeaderMatch l
    · exact absurd hfm hne
    · rfl
  have hpre : startsWith l hdrPre = true := by
    unfold fileHeaderMatch fileHeaderSplit at hmatch
    by_cases hp : startsWith l hdrPre = true
    · exact hp
    · rw [if_neg hp] at hmatch
      simp at hmatch
  have hd : 'd' ∈ l := subset_of_isPrefixOf hpre (by decide)
  have := h 'd' hd
  simp [isGoSpace] at this

theorem statsFold_no_header (st : DiffStats) :
    ∀ (lines : List Str), (∀ l ∈ lines, fileHeaderMatch l = false) →
      lines.foldl statsStep (st, false) = (st, false) := by
  intro lines
  induction lines with
  | nil => intro _; rfl
  | cons l rest ih =>
    intro h
    have hstep : statsStep (st, false) l = (st, false) := by
      unfold statsStep
      rw [if_neg (by simp [h l (List.mem_cons_self l rest)])]
      rfl
    simp only [List.foldl_cons, hstep]
    exact ih (fun x hx => h x (List.mem_cons_of_mem l hx))

theorem noConflicts_of_allSpace {s : Str}
    (h : ∀ c ∈ s, isGoSpace c = true) :
    (getDiffStats s).HasConflicts = false := by
  unfold getDiffStats
  split
  · rfl
  · rw [statsFold_no_header {} (linesOf s)
      (fun l hl => no_header_of_allSpace
        (fun c hc => h c (mem_linesOf_subset hl hc)))]

theorem trimSpace_ne_of_conflicts {d : Str}
    (h : (getDiffStats d).HasConflicts = true) : trimSpace d ≠ [] := by
  intro hnil
  rw [noConflicts_of_allSpace (allSpace_of_trimSpace_nil hnil)] at h
  exact Bool.false_ne_true h

/-- C10: calling `EvaluatePatch` with the baseline still unset (nil), on
a diff that is neither whitespace-only nor conflict-marked and whose
test run returns normally, reaches the nil dereference of
`before.Success` inside `CompareResults` and panics instead of
returning an error: nothing checks the set-baseline precondition. -/
theorem evaluatePatch_nil_baseline (agentID diff : Str) (tr : TestResult)
    (events : List EventRec)
    (h1 : trimSpace diff ≠ [])
    (h2 : (getDiffStats diff).HasConflicts = false) :
    evaluatePatch none agentID diff (.ok tr) events
      = ⟨.nilPanic, true⟩ := by
  simp [evaluatePatch, h1, h2]

/-- Witness for C10 at a concrete diff and test result. -/
theorem evaluatePatch_nil_baseline_witness :
    evaluatePatch none ("agent1".toList) ("diff --git a/f b/f\n+x\n".toList)
      (.ok { Success := true, TotalTests := 1, PassedTests := 1 }) []
      = ⟨.nilPanic, true⟩ :=
  evaluatePatch_nil_baseline _ _ _ _ (by decide) (by decide)

/-- Projection used to state counterexamples about evaluation results. -/
def outcomeScore : EvalOutcome → Option Int
  | .ok r => some r.Score
  | _ => none

/-- Projection used to state counterexamples about evaluation results. -/
def outcomeReason : EvalOutcome → Option Str
  | .ok r => some r.Reason
  | _ => none

/-- C1 counterexample: a diff consisting of the single line
`<<<<<<< HEAD` contains a conflict-marker line, yet `GetDiffStats`
reports no conflicts (the marker scan only runs after a `diff --git`
header line), so `EvaluatePatch` runs the tests and scores the patch
normally instead of returning `-10` without invoking the runner. -/
theorem evaluatePatch_headerless_conflict_counter :
    linesOf ("<<<<<<< HEAD\n".toList) = ["<<<<<<< HEAD".toList]
    ∧ startsWith ("<<<<<<< HEAD".toList) ("<<<<<<<".toList) = true
    ∧ (getDiffStats ("<<<<<<< HEAD\n".toList)).HasConflicts = false
    ∧ (evaluatePatch
        (some { Success := false, TotalTests := 1, FailedTests := 1 })
        ("agent1".toList) ("<<<<<<< HEAD\n".toList)
        (.ok { Success := true, TotalTests := 1, PassedTests := 1 })
        []).ranTests = true
    ∧ outcomeScore (evaluatePatch
        (some { Success := false, TotalTests := 1, FailedTests := 1 })
        ("agent1".toList) ("<<<<<<< HEAD\n".toList)
        (.ok { Success := true, TotalTests := 1, PassedTests := 1 })
        []).outcome = some 165
    ∧ outcomeReason (evaluatePatch
        (some { Success := false, TotalTests := 1, FailedTests := 1 })
        ("agent1".toList) ("<<<<<<< HEAD\n".toList)
        (.ok { Success := true, TotalTests := 1, PassedTests := 1 })
        []).outcome = some ("Tests now passing".toList) := by
  decide

/-- C1 (amended): for every diff on which `GetDiffStats` reports
conflict markers (a conflict-marker line inside a file section),
`EvaluatePatch` returns score `-10` with reason
`Patch contains merge conflicts` and does not invoke the test runner. -/
theorem evaluatePatch_conflict_stats (base : Option TestResult)
    (agentID diff : Str) (run : Except Str TestResult)
    (events : List EventRec)
    (h : (getDiffStats diff).HasConflicts = true) :
    evaluatePatch base agentID diff run events
      = ⟨.ok { AgentID := agentID, Diff := diff
               Stats := getDiffStats diff, Score := -10
               Reason := "Patch contains merge conflicts".toList
               Events := events }, false⟩ := by
  simp [evaluatePatch, trimSpace_ne_of_conflicts h, h]

/-- Witness for the amended C1 at a concrete conflicted diff. -/
theorem evaluatePatch_conflict_stats_witness :
    evaluatePatch none ("agent1".toList)
      ("diff --git a/f b/f\n<<<<<<< x\n".toList) (.error ("x".toList)) []
      = ⟨.ok { AgentID := "agent1".toList
               Diff := "diff --git a/f b/f\n<<<<<<< x\n".toList
               Stats := getDiffStats ("diff --git a/f b/f\n<<<<<<< x\n".toList)
               Score := -10
               Reason := "Patch contains merge conflicts".toList
               Events := [] }, false⟩ :=
  evaluatePatch_conflict_stats _ _ _ _ _ (by decide)

/-! ## Claims about configuration validation -/

/-- C8 counterexample: `validateConfig` rejects an agent whose type is
the adapter-family tag `amp` (only `http` and `cli` are accepted), so
loading such a configuration fails. -/
theorem validateConfig_rejects_amp :
    validateConfig
      { WorkingDir := "/tmp/w".toList
        Agents := [{ ID := "amp".toList, typ := "amp".toList }] }
      = .error
        ("agent 'amp' has invalid type 'amp', must be 'http' or 'cli'".toList)
      := by decide

theorem firstAgentError_none (ags : List AgentConfig)
    (h : ∀ a ∈ ags, a.ID ≠ []
      ∧ (a.typ = "cli".toList ∨ a.typ = "http".toList)) :
    ∀ i, firstAgentError ags i = none := by
  induction ags with
  | nil => intro _; rfl
  | cons a rest ih =>
    intro i
    obtain ⟨hid, hty⟩ := h a (List.mem_cons_self a rest)
    have hne : a.typ ≠ [] := by
      rcases hty with h' | h' <;> rw [h'] <;> decide
    have hv : ¬(a.typ ≠ "http".toList ∧ a.typ ≠ "cli".toList) := by
      rcases hty with h' | h' <;> simp [h']
    unfold firstAgentError
    rw [if_neg hid, if_neg hne, if_neg hv]
    exact ih (fun x hx => h x (List.mem_cons_of_mem a hx)) (i + 1)

/-- C8 (amended): validation accepts exactly the types `cli` and `http`;
for every configuration with a non-empty working directory and a
non-empty agent list whose agents have unique non-empty ids and type
`cli` or `http`, validation succeeds.  Adapter-family tags such as
`amp`, `codex` or `claude` are rejected (family selection happens later,
in the registry factory, from the agent id or its `command` option). -/
theorem validateConfig_cli_http (cfg : Config)
    (hwd : cfg.WorkingDir ≠ [])
    (hag : cfg.Agents ≠ [])
    (_huniq : (cfg.Agents.map AgentConfig.ID).Pairwise (· ≠ ·))
    (hall : ∀ a ∈ cfg.Agents, a.ID ≠ []
      ∧ (a.typ = "cli".toList ∨ a.typ = "http".toList)) :
    ∃ c, validateConfig cfg = .ok c := by
  unfold validateConfig
  rw [if_neg hwd, if_neg hag, firstAgentError_none cfg.Agents hall 0]
  dsimp only
  split_ifs <;> exact ⟨_, rfl⟩

/-- Witness for the amended C8 at a concrete configuration. -/
theorem validateConfig_cli_http_witness :
    ∃ c, validateConfig
      { WorkingDir := "/tmp/w".toList
        Agents := [{ ID := "agent1".toList, typ := "cli".toList },
                   { ID := "agent2".toList, typ := "http".toList }] }
      = .ok c :=
  validateConfig_cli_http _ (by decide) (by decide) (by decide) (by decide)

/-! ## Claims about the CLI adapter's event stream -/

/-- Consecutive integers starting at `s`. -/
def intSeqFrom : Int → Nat → List Int
  | _, 0 => []
  | s, n + 1 => s :: intSeqFrom (s + 1) n

theorem strictIncr_intSeqFrom : ∀ (n : Nat) (s : Int),
    strictIncr (intSeqFrom s n) = true := by
  intro n
  induction n with
  | zero => intro s; rfl
  | succ m ih =>
    intro s
    cases m with
    | zero => rfl
    | succ k =>
      have h2 := ih (s + 1)
      simp only [intSeqFrom] at h2 ⊢
      simp [strictIncr, h2]

theorem startsAtOne_intSeqFrom (n : Nat) :
    startsAtOne (intSeqFrom 1 n) = true := by
  cases n <;> rfl

/-- C7 counterexample: events that already carry a `sequence_num` are
passed through unchanged by the adapter (only a zero/missing field is
filled from the counter), so two stdout lines that decode with
`sequence_num` 5 (as `protocol.Unmarshal` yields for, say,
`{"type":"thinking","sequence_num":5}`) produce the emitted sequence
`[5, 5]`: neither strictly increasing nor starting at 1. -/
theorem cliProcess_passthrough_counter :
    ((cliProcess ("agent1".toList)
        (fun l => if l = "a".toList then
            .ok { typ := "thinking".toList, SequenceNum := 5 }
          else .error ("bad".toList))
        ["a".toList, "a".toList]).map EventRec.SequenceNum) = [5, 5]
    ∧ strictIncr [5, 5] = false
    ∧ startsAtOne [5, 5] = false := by
  decide

theorem cliFold (id : Str) (unmarshal : Str → Except Str EventRec)
    (h : ∀ l e, unmarshal l = .ok e → e.AgentID = [] ∧ e.SequenceNum = 0) :
    ∀ (lines : List Str) (acc : List EventRec) (s : Int),
      ∃ ext, (lines.foldl (cliStep id unmarshal) (acc, s)).1 = acc ++ ext
        ∧ ext.map EventRec.SequenceNum = intSeqFrom s lines.length
        ∧ ∀ e ∈ ext, e.AgentID = id := by
  intro lines
  induction lines with
  | nil =>
    intro acc s
    exact ⟨[], by simp, rfl, by simp⟩
  | cons l rest ih =>
    intro acc s
    simp only [List.foldl_cons]
    rcases hu : unmarshal l with err | ev
    · have hstep : cliStep id unmarshal (acc, s) l =
          (acc ++ [{ typ := "error".toList, AgentID := id, SequenceNum := s
                     PayloadMessage := "Failed to parse output: ".toList ++ err
                     PayloadCode := "parse_error".toList }], s + 1) := by
        simp [cliStep, hu]
      obtain ⟨ext, h1, h2, h3⟩ := ih
        (acc ++ [{ typ := "error".toList, AgentID := id, SequenceNum := s
                   PayloadMessage := "Failed to parse output: ".toList ++ err
                   PayloadCode := "parse_error".toList }]) (s + 1)
      rw [hstep]
      refine ⟨{ typ := "error".toList, AgentID := id, SequenceNum := s
                PayloadMessage := "Failed to parse output: ".toList ++ err
                PayloadCode := "parse_error".toList } :: ext, ?_, ?_, ?_⟩
      · rw [h1]
        simp
      · simp only [List.map_cons, h2, List.length_cons, intSeqFrom]
      · intro e he
        rcases List.mem_cons.mp he with rfl | he
        · rfl
        · exact h3 e he
    · obtain ⟨hA, hS⟩ := h l ev hu
      have hstep : cliStep id unmarshal (acc, s) l =
          (acc ++ [{ ev with AgentID := id, SequenceNum := s }], s + 1) := by
        simp [cliStep, hu, hA, hS]
      obtain ⟨ext, h1, h2, h3⟩ := ih
        (acc ++ [{ ev with AgentID := id, SequenceNum := s }]) (s + 1)
      rw [hstep]
      refine ⟨{ ev with AgentID := id, SequenceNum := s } :: ext, ?_, ?_, ?_⟩
      · rw [h1]
        simp
      · simp only [List.map_cons, h2, List.length_cons, intSeqFrom]
      · intro e he
        rcases List.mem_cons.mp he with rfl | he
        · rfl
        · exact h3 e he

/-- C7 (amended): when every line that decodes successfully yields an
event with empty `agent_id` and zero `sequence_num` (the fields are
absent on the wire), the events the adapter emits have strictly
increasing sequence numbers starting at 1 and carry the adapter's id. -/
theorem cliProcess_fresh (id : Str)
    (unmarshal : Str → Except Str EventRec) (lines : List Str)
    (h : ∀ l e, unmarshal l = .ok e → e.AgentID = [] ∧ e.SequenceNum = 0) :
    strictIncr ((cliProcess id unmarshal lines).map EventRec.SequenceNum)
        = true
    ∧ startsAtOne ((cliProcess id unmarshal lines).map EventRec.SequenceNum)
        = true
    ∧ ∀ e ∈ cliProcess id unmarshal lines, e.AgentID = id := by
  obtain ⟨ext, h1, h2, h3⟩ := cliFold id unmarshal h lines [] 1
  unfold cliProcess
  rw [h1, List.nil_append, h2]
  exact ⟨strictIncr_intSeqFrom _ _, startsAtOne_intSeqFrom _, h3⟩

/-- Witness for the amended C7 at a concrete adapter run. -/
theorem cliProcess_fresh_witness :
    strictIncr ((cliProcess ("agent1".toList)
        (fun _ => .error ("e".toList)) ["p".toList, "q".toList]).map
        EventRec.SequenceNum) = true
    ∧ startsAtOne ((cliProcess ("agent1".toList)
        (fun _ => .error ("e".toList)) ["p".toList, "q".toList]).map
        EventRec.SequenceNum) = true
    ∧ ∀ e ∈ cliProcess ("agent1".toList)
        (fun _ => .error ("e".toList)) ["p".toList, "q".toList],
        e.AgentID = "agent1".toList :=
  cliProcess_fresh _ _ _ (fun _ _ h => Except.noConfusion h)

/-! ## Claims about `SelectBestPatch` -/

theorem evaluatePatch_some_no_panic (b : TestResult) (agentID diff : Str)
    (run : Except Str TestResult) (events : List EventRec) :
    (evaluatePatch (some b) agentID diff run events).outcome
      ≠ EvalOutcome.nilPanic := by
  by_cases h1 : trimSpace diff = []
  · simp [evaluatePatch, h1]
  by_cases h2 : (getDiffStats diff).HasConflicts = true
  · simp [evaluatePatch, h1, h2]
  rcases run with e | tr <;> simp [evaluatePatch, h1, h2]

/-- The successful result, if any, of evaluating one candidate. -/
def okOf (b : TestResult) (c : Cand) : Option PatchResult :=
  match (evalCand (some b) c).outcome with
  | .ok r => some r
  | _ => none

theorem gather_some (b : TestResult) :
    ∀ cands, gatherResults (some b) cands
      = .ok (cands.filterMap (okOf b)) := by
  intro cands
  induction cands with
  | nil => rfl
  | cons c rest ih =>
    rcases hE : evalCand (some b) c with ⟨o, ran⟩
    cases o with
    | nilPanic =>
      have hnp := evaluatePatch_some_no_panic b c.agentID c.Diff
        c.runOutcome c.Events
      rw [show evaluatePatch (some b) c.agentID c.Diff c.runOutcome c.Events
        = evalCand (some b) c from rfl, hE] at hnp
      exact absurd rfl hnp
    | err msg =>
      simp only [gatherResults, hE, List.filterMap_cons]
      rw [show okOf b c = none from by unfold okOf; rw [hE]]
      exact ih
    | ok r =>
      simp only [gatherResults, hE, List.filterMap_cons]
      rw [show okOf b c = some r from by unfold okOf; rw [hE], ih]
      rfl

theorem sortedHead_max (rs : List PatchResult) (r : PatchResult)
    (t : List PatchResult) (hs : rs.insertionSort scoreRel = r :: t) :
    ∀ x ∈ rs, x.Score ≤ r.Score := by
  intro x hx
  have hsorted := List.sorted_insertionSort scoreRel rs
  have hperm := List.perm_insertionSort scoreRel rs
  have hx2 : x ∈ r :: t := by
    rw [← hs]
    exact hperm.mem_iff.mpr hx
  rw [hs] at hsorted
  rcases List.mem_cons.mp hx2 with rfl | hx3
  · exact le_refl _
  · exact (List.sorted_cons.mp hsorted).1 x hx3

/-- C3: with the baseline set, for every non-empty candidate map in
which at least one candidate evaluates without error, `SelectBestPatch`
returns a result whose score is at least the score of every successfully
evaluated candidate (errored candidates are skipped), and the call
fails only when no candidate evaluates successfully. -/
theorem selectBestPatch_max :
    (∀ (base : TestResult) (cands : List Cand),
      cands ≠ [] →
      (∃ c ∈ cands, (okOf base c).isSome = true) →
      ∃ r, selectBestPatch (some base) cands = .ok r
        ∧ ∀ c ∈ cands, ∀ pr,
            (evalCand (some base) c).outcome = .ok pr → pr.Score ≤ r.Score)
    ∧ (∀ (base : TestResult) (cands : List Cand) (msg : Str),
      selectBestPatch (some base) cands = .err msg →
      ∀ c ∈ cands, ∀ pr, (evalCand (some base) c).outcome ≠ .ok pr) := by
  constructor
  · intro base cands hne hex
    have hg := gather_some base cands
    have hrsne : cands.filterMap (okOf base) ≠ [] := by
      obtain ⟨c, hc, hok⟩ := hex
      obtain ⟨r, hr⟩ := Option.isSome_iff_exists.mp hok
      exact List.ne_nil_of_mem (List.mem_filterMap.mpr ⟨c, hc, hr⟩)
    unfold selectBestPatch
    rw [if_neg hne, hg]
    dsimp only
    rw [if_neg hrsne]
    rcases hs : (cands.filterMap (okOf base)).insertionSort scoreRel
      with _ | ⟨r, t⟩
    · have hp := List.perm_insertionSort scoreRel
        (cands.filterMap (okOf base))
      rw [hs] at hp
      exact absurd hp.symm.eq_nil hrsne
    · refine ⟨r, rfl, ?_⟩
      intro c hc pr hpr
      have hok : okOf base c = some pr := by unfold okOf; rw [hpr]
      exact sortedHead_max _ r t hs pr
        (List.mem_filterMap.mpr ⟨c, hc, hok⟩)
  · intro base cands msg hsel c hc pr hpr
    by_cases hne : cands = []
    · subst hne
      exact absurd hc (List.not_mem_nil c)
    unfold selectBestPatch at hsel
    rw [if_neg hne, gather_some base cands] at hsel
    dsimp only at hsel
    have hok : okOf base c = some pr := by unfold okOf; rw [hpr]
    have hmem : pr ∈ cands.filterMap (okOf base) :=
      List.mem_filterMap.mpr ⟨c, hc, hok⟩
    have hrs : cands.filterMap (okOf base) ≠ [] :=
      List.ne_nil_of_mem hmem
    rw [if_neg hrs] at hsel
    rcases hs : (cands.filterMap (okOf base)).insertionSort scoreRel
      with _ | ⟨r, t⟩
    · have hp := List.perm_insertionSort scoreRel
        (cands.filterMap (okOf base))
      rw [hs] at hp
      exact absurd hp.symm.eq_nil hrs
    · rw [hs] at hsel
      exact SelOutcome.noConfusion hsel

/-- A concrete candidate with a successful evaluation. -/
def witCand : Cand :=
  { agentID := "a".toList
    Diff := "diff --git a/f b/f\n+x\n".toList
    runOutcome :=
      Except.ok { Success := true, TotalTests := 1, PassedTests := 1 } }

/-- Witness for C3 at a concrete candidate list. -/
theorem selectBestPatch_max_witness :
    ∃ r, selectBestPatch (some { Success := false }) [witCand] = .ok r
      ∧ ∀ c ∈ [witCand], ∀ pr,
          (evalCand (some { Success := false }) c).outcome = .ok pr →
            pr.Score ≤ r.Score :=
  selectBestPatch_max.1 _ _ (by decide) (by decide)

/-! ## Claims about `NormalizeDiff` -/

theorem fileHeaderSplit_some {l m1 m2 : Str}
    (h : fileHeaderSplit l = some (m1, m2)) :
    l = hdrPre ++ m1 ++ " b/".toList ++ m2 := by
  unfold fileHeaderSplit at h
  by_cases hp : startsWith l hdrPre = true
  swap
  · rw [if_neg hp] at h
    exact Option.noConfusion h
  rw [if_pos hp] at h
  dsimp only at h
  rcases hi : headerSplitIdx (l.drop 13) with _ | i
  · rw [hi] at h
    exact Option.noConfusion h
  rw [hi] at h
  injection h with h'
  have hm1 : (l.drop 13).take i = m1 := congrArg Prod.fst h'
  have hm2 : (l.drop 13).drop (i + 3) = m2 := congrArg Prod.snd h'
  have hmem := List.max?_mem (fun a b => max_choice a b) hi
  have hcond := (List.mem_filter.mp hmem).2
  simp only [Bool.and_eq_true, decide_eq_true_eq] at hcond
  obtain ⟨⟨_, hib⟩, _⟩ := hcond
  obtain ⟨t, ht⟩ := List.isPrefixOf_iff_prefix.mp hp
  have hdrop13 : l.drop 13 = t := by
    rw [← ht, show (13 : Nat) = hdrPre.length from rfl, List.drop_left]
  have hl : l = hdrPre ++ l.drop 13 := by rw [hdrop13, ht]
  obtain ⟨u, hu⟩ := List.isPrefixOf_iff_prefix.mp hib
  have hdropu : ((l.drop 13).drop i).drop 3 = u := by
    rw [← hu, show (3 : Nat) = " b/".toList.length from rfl, List.drop_left]
  have hsplit : l.drop 13 = m1 ++ (" b/".toList ++ m2) := by
    rw [← hm1, ← hm2]
    have h1 := (List.take_append_drop i (l.drop 13)).symm
    have h2 : (l.drop 13).drop i = " b/".toList ++ (l.drop 13).drop (i + 3)
        := by
      rw [← hu]
      congr 1
      rw [← hdropu, List.drop_drop]
    rw [h2] at h1
    exact h1
  rw [hl, hsplit]
  simp [List.append_assoc]

theorem normLine_eq (l : Str) :
    normLine l = if tsMatch l || idxMatch l then [] else [l] := by
  unfold normLine
  by_cases hts : tsMatch l = true
  · simp [hts]
  have hts' : tsMatch l = false := Bool.eq_false_iff.mpr hts
  by_cases hidx : idxMatch l = true
  · simp [hts', hidx]
  have hidx' : idxMatch l = false := Bool.eq_false_iff.mpr hidx
  rcases hf : fileHeaderSplit l with _ | ⟨m1, m2⟩
  · simp [hts', hidx', hf]
  · have hdec := fileHeaderSplit_some hf
    by_cases heq : m1 = m2
    · subst heq
      simp only [hts', hidx', Bool.or_self, Bool.false_eq_true, if_false,
        hf]
      rw [if_pos trivial, hdec]
    · simp [hts', hidx', hf, heq]

theorem flatten_map_filter {α : Type} (f : α → List α) (p : α → Bool)
    (hf : ∀ x, f x = if p x then [x] else []) (xs : List α) :
    (xs.map f).flatten = xs.filter p := by
  induction xs with
  | nil => rfl
  | cons x rest ih =>
    simp only [List.map_cons, List.flatten_cons, hf x, List.filter_cons, ih]
    by_cases hp : p x = true
    · simp [hp]
    · simp [hp]

/-- The predicate for lines `NormalizeDiff` keeps. -/
def keptLine (l : Str) : Bool := !(tsMatch l || idxMatch l)

theorem normLine_keptLine (l : Str) :
    normLine l = if keptLine l then [l] else [] := by
  rw [normLine_eq]
  unfold keptLine
  cases tsMatch l || idxMatch l <;> rfl

theorem flatten_normLine (L : List Str) :
    (L.map normLine).flatten = L.filter keptLine :=
  flatten_map_filter normLine keptLine normLine_keptLine L

theorem linesOf_normalizeDiff (d : Str)
    (h : ∀ l ∈ linesOf d, l.getLast? ≠ some '\r') :
    linesOf (normalizeDiff d) = (linesOf d).filter keptLine := by
  unfold normalizeDiff
  rw [flatten_normLine]
  exact linesOf_unlines _ (fun l hl => by
    have hl2 : l ∈ linesOf d := List.mem_of_mem_filter hl
    exact ⟨mem_linesOf_no_nl hl2, h l hl2⟩)

/-- C5 counterexample: `NormalizeDiff` is not idempotent.  The scanner
strips one trailing carriage return per pass, so `"x\r\r\n"` normalises
to `"x\r\n"` and normalising again yields `"x\n"`. -/
theorem normalizeDiff_not_idem :
    normalizeDiff (normalizeDiff ("x\r\r\n".toList))
        ≠ normalizeDiff ("x\r\r\n".toList)
    ∧ normalizeDiff ("x\r\r\n".toList) = "x\r\n".toList
    ∧ normalizeDiff (normalizeDiff ("x\r\r\n".toList)) = "x\n".toList := by
  decide

/-- C5 (amended): `NormalizeDiff` is idempotent on every diff string
none of whose scanned lines ends with a carriage return (in particular,
on every string without carriage returns). -/
theorem normalizeDiff_idem (d : Str)
    (h : ∀ l ∈ linesOf d, l.getLast? ≠ some '\r') :
    normalizeDiff (normalizeDiff d) = normalizeDiff d := by
  have hall : ∀ x ∈ (linesOf d).filter keptLine, normLine x = [x] := by
    intro x hx
    rw [normLine_keptLine, if_pos (List.of_mem_filter hx)]
  calc normalizeDiff (normalizeDiff d)
      = unlines (((linesOf (normalizeDiff d)).map normLine).flatten) := rfl
    _ = unlines ((((linesOf d).filter keptLine).map normLine).flatten) := by
        rw [linesOf_normalizeDiff d h]
    _ = unlines ((linesOf d).filter keptLine) := by
        rw [flatten_map_eq_self normLine _ hall]
    _ = normalizeDiff d := by rw [normalizeDiff, flatten_normLine]

/-- Witness for the amended C5 at a concrete diff. -/
theorem normalizeDiff_idem_witness :
    normalizeDiff (normalizeDiff ("abc\n+x\n".toList))
      = normalizeDiff ("abc\n+x\n".toList) :=
  normalizeDiff_idem _ (by decide)

/-! ## Claims about `CompareDiffs` and `GetDiffStats`

The reduced form `RemoveContextLines (NormalizeDiff d)` determines the
sequence of visible lines of `d` (headers, hunk headers, `+++`/`---`
lines, added/removed lines, no-newline markers), and the two line
counters of `GetDiffStats` are a function of exactly those lines —
provided no scanned line ends in a carriage return, which is where the
claim fails. -/

theorem redLine_shape (l : Str) :
    redLine l = [] ∨ redLine l = [l] ∨ redLine l = [l, l] := by
  unfold redLine
  split_ifs <;> simp

theorem startsWith_trans {l p q : Str} (hq : q.isPrefixOf p = true)
    (hp : startsWith l p = true) : startsWith l q = true := by
  unfold startsWith at *
  rw [List.isPrefixOf_iff_prefix] at *
  exact hq.trans hp

theorem startsWith_head {c : Char} {p l : Str}
    (h : startsWith l (c :: p) = true) : ∃ t, l = c :: t := by
  cases l with
  | nil => simp [startsWith, List.isPrefixOf] at h
  | cons d ds =>
    have : c = d := by
      simp only [startsWith, List.isPrefixOf, Bool.and_eq_true] at h
      exact eq_of_beq h.1
    exact ⟨ds, by rw [this]⟩

theorem startsWith_distinct_heads {c1 c2 : Char} {p1 p2 l : Str}
    (h1 : startsWith l (c1 :: p1) = true)
    (h2 : startsWith l (c2 :: p2) = true) : c1 = c2 := by
  obtain ⟨t1, ht1⟩ := startsWith_head h1
  obtain ⟨t2, ht2⟩ := startsWith_head h2
  rw [ht1] at ht2
  injection ht2

theorem headerMatch_starts {l : Str} (h : fileHeaderMatch l = true) :
    startsWith l hdrPre = true := by
  unfold fileHeaderMatch fileHeaderSplit at h
  by_cases hp : startsWith l hdrPre = true
  · exact hp
  · rw [if_neg hp] at h
    simp at h

/-- A line on a "`\ No newline`"-marker duplication boundary: the parse
of the reduced line list undoes the duplication performed by
`RemoveContextLines` on added/removed lines that contain the marker. -/
def parseVis : List Str → List Str
  | [] => []
  | [t] => [t]
  | t :: u :: rest =>
    if (redLine t).length = 2 then t :: parseVis rest
    else t :: parseVis (u :: rest)

theorem flatten_redLine_nil {vs : List Str}
    (hne : ∀ v ∈ vs, redLine v ≠ [])
    (h : ((vs.map redLine).flatten) = []) : vs = [] := by
  cases vs with
  | nil => rfl
  | cons v rest =>
    simp only [List.map_cons, List.flatten_cons, List.append_eq_nil] at h
    exact absurd h.1 (hne v (List.mem_cons_self v rest))

theorem parseVis_spec : ∀ (vs : List Str),
    (∀ v ∈ vs, redLine v ≠ []) →
    parseVis ((vs.map redLine).flatten) = vs := by
  intro vs
  induction vs with
  | nil => intro _; rfl
  | cons v rest ih =>
    intro hne
    have hv := hne v (List.mem_cons_self v rest)
    have hrest : ∀ x ∈ rest, redLine x ≠ [] :=
      fun x hx => hne x (List.mem_cons_of_mem v hx)
    rcases redLine_shape v with h0 | h1 | h2
    · exact absurd h0 hv
    · simp only [List.map_cons, List.flatten_cons, h1, List.cons_append,
        List.nil_append]
      rcases hT : (rest.map redLine).flatten with _ | ⟨u, tl⟩
      · rw [flatten_redLine_nil hrest hT]
        rfl
      · show parseVis (v :: u :: tl) = v :: rest
        unfold parseVis
        rw [if_neg (by rw [h1]; simp)]
        rw [← hT, ih hrest]
    · simp only [List.map_cons, List.flatten_cons, h2, List.cons_append,
        List.nil_append]
      show parseVis (v :: v :: (rest.map redLine).flatten) = v :: rest
      unfold parseVis
      rw [if_pos (by rw [h2]; rfl)]
      rw [ih hrest]

/-- The lines that are both kept by `NormalizeDiff` and emitted by
`RemoveContextLines`. -/
def visPred (l : Str) : Bool := keptLine l && !(redLine l).isEmpty

theorem filter_kept_vis (L : List Str) :
    (L.filter keptLine).filter (fun l => !(redLine l).isEmpty)
      = L.filter visPred := by
  induction L with
  | nil => rfl
  | cons l rest ih =>
    by_cases hk : keptLine l = true
    · by_cases he : (redLine l).isEmpty = true
      · simp [List.filter_cons, hk, he, visPred, ih]
      · simp [List.filter_cons, hk, he, visPred, ih]
    · simp [List.filter_cons, hk, visPred, ih]

theorem flatten_map_drop_empty {α β : Type} (f : α → List β) (xs : List α) :
    ((xs.filter (fun x => !(f x).isEmpty)).map f).flatten
      = (xs.map f).flatten := by
  induction xs with
  | nil => rfl
  | cons x rest ih =>
    by_cases he : (f x).isEmpty = true
    · rw [List.filter_cons_of_neg (by simp [he])]
      rw [List.isEmpty_iff] at he
      simp [he, ih]
    · rw [List.filter_cons_of_pos (by simp [he])]
      simp [ih]

theorem linesOf_reduced (d : Str)
    (h : ∀ l ∈ linesOf d, l.getLast? ≠ some '\r') :
    linesOf (removeContextLines (normalizeDiff d))
      = (((linesOf d).filter visPred).map redLine).flatten := by
  unfold removeContextLines
  rw [linesOf_normalizeDiff d h]
  have hprops : ∀ x ∈ ((((linesOf d).filter keptLine).map redLine).flatten),
      '\n' ∉ x ∧ x.getLast? ≠ some '\r' := by
    intro x hx
    rw [List.mem_flatten] at hx
    obtain ⟨ys, hys, hxy⟩ := hx
    rw [List.mem_map] at hys
    obtain ⟨l, hl, rfl⟩ := hys
    have hl2 : l ∈ linesOf d := List.mem_of_mem_filter hl
    have hx2 : x = l := by
      rcases redLine_shape l with h0 | h1 | h2
      · rw [h0] at hxy
        exact absurd hxy (List.not_mem_nil x)
      · rw [h1] at hxy
        simpa using hxy
      · rw [h2] at hxy
        have hx3 : x = l ∨ x = l := by simpa using hxy
        rcases hx3 with h' | h' <;> exact h'
    rw [hx2]
    exact ⟨mem_linesOf_no_nl hl2, h l hl2⟩
  rw [linesOf_unlines _ hprops, ← filter_kept_vis,
    flatten_map_drop_empty redLine ((linesOf d).filter keptLine)]

theorem startsWith_headEq {l p : Str} (hne : p ≠ [])
    (h : startsWith l p = true) : l.head? = p.head? := by
  cases p with
  | nil => exact absurd rfl hne
  | cons b bs =>
    obtain ⟨t, rfl⟩ := startsWith_head h
    rfl

theorem startsWith_false_of_head {l p : Str} {c : Char}
    (hl : l.head? = some c) (hne : p ≠ []) (hpc : p.head? ≠ some c) :
    startsWith l p = false := by
  cases hsw : startsWith l p
  · rfl
  · have he := startsWith_headEq hne hsw
    rw [hl] at he
    exact absurd he.symm hpc

theorem headerMatch_false {l : Str} (h : startsWith l hdrPre = false) :
    fileHeaderMatch l = false := by
  cases hfh : fileHeaderMatch l
  · rfl
  · rw [headerMatch_starts hfh] at h
    exact absurd h (by decide)

theorem tsMatch_starts {l : Str} (h : tsMatch l = true) :
    startsWith l ("+++ ".toList) = true
      ∨ startsWith l ("--- ".toList) = true := by
  unfold tsMatch at h
  rw [Bool.and_eq_true, Bool.or_eq_true] at h
  exact h.1

theorem idxMatch_starts {l : Str} (h : idxMatch l = true) :
    startsWith l ("index ".toList) = true := by
  unfold idxMatch at h
  rw [Bool.and_eq_true] at h
  exact h.1

theorem redLine_nil_conds {l : Str} (h : redLine l = []) :
    fileHeaderMatch l = false ∧ startsWith l ['+'] = false
      ∧ startsWith l ['-'] = false := by
  unfold redLine at h
  by_cases hb : (fileHeaderMatch l || hunkMatch l
      || startsWith l ("+++".toList) || startsWith l ("---".toList)) = true
  · rw [if_pos hb] at h
    exact absurd h (by simp)
  · rw [if_neg hb] at h
    simp only [Bool.or_eq_true, not_or, Bool.not_eq_true] at hb
    obtain ⟨⟨⟨hA, _⟩, _⟩, _⟩ := hb
    rw [List.append_eq_nil] at h
    have h1 := h.1
    by_cases hpm : (startsWith l ['+'] || startsWith l ['-']) = true
    · rw [if_pos hpm] at h1
      exact absurd h1 (by simp)
    · simp only [Bool.or_eq_true, not_or, Bool.not_eq_true] at hpm
      exact ⟨hA, hpm.1, hpm.2⟩

theorem visPred_false_conds {l : Str} (h : visPred l = false) :
    fileHeaderMatch l = false
    ∧ (startsWith l ['+'] && !startsWith l ("+++".toList)) = false
    ∧ (startsWith l ['-'] && !startsWith l ("---".toList)) = false := by
  by_cases hk : keptLine l = true
  · have hre : (redLine l).isEmpty = true := by
      cases hre : (redLine l).isEmpty
      · unfold visPred at h
        rw [hk, hre] at h
        simp at h
      · rfl
    obtain ⟨h1, h2, h3⟩ := redLine_nil_conds (List.isEmpty_iff.mp hre)
    exact ⟨h1, by rw [h2]; rfl, by rw [h3]; rfl⟩
  · have hk' : keptLine l = false := Bool.eq_false_iff.mpr hk
    unfold keptLine at hk'
    have hor : tsMatch l = true ∨ idxMatch l = true := by
      cases hts : tsMatch l
      · cases hidx : idxMatch l
        · rw [hts, hidx] at hk'
          simp at hk'
        · exact Or.inr rfl
      · exact Or.inl rfl
    have hhead : l.head? = some '+' ∨ l.head? = some '-'
        ∨ l.head? = some 'i' := by
      rcases hor with hts | hidx
      · rcases tsMatch_starts hts with hst | hst
        · exact Or.inl (by rw [startsWith_headEq (by decide) hst]; rfl)
        · exact Or.inr (Or.inl (by rw [startsWith_headEq (by decide) hst]; rfl))
      · exact Or.inr (Or.inr
          (by rw [startsWith_headEq (by decide) (idxMatch_starts hidx)]; rfl))
    have hhdr : fileHeaderMatch l = false := by
      rcases hhead with hc | hc | hc <;>
        exact headerMatch_false (startsWith_false_of_head hc (by decide)
          (by decide))
    refine ⟨hhdr, ?_, ?_⟩
    · rcases hor with hts | hidx
      · rcases tsMatch_starts hts with hst | hst
        · have h3 : startsWith l ("+++".toList) = true :=
            startsWith_trans (by decide) hst
          rw [h3]
          simp
        · rw [startsWith_false_of_head
            (by rw [startsWith_headEq (by decide) hst]; rfl)
            (p := ['+']) (by decide) (by decide)]
          rfl
      · rw [startsWith_false_of_head
          (by rw [startsWith_headEq (by decide) (idxMatch_starts hidx)]; rfl)
          (p := ['+']) (by decide) (by decide)]
        rfl
    · rcases hor with hts | hidx
      · rcases tsMatch_starts hts with hst | hst
        · rw [startsWith_false_of_head
            (by rw [startsWith_headEq (by decide) hst]; rfl)
            (p := ['-']) (by decide) (by decide)]
          rfl
        · have h3 : startsWith l ("---".toList) = true :=
            startsWith_trans (by decide) hst
          rw [h3]
          simp
      · rw [startsWith_false_of_head
          (by rw [startsWith_headEq (by decide) (idxMatch_starts hidx)]; rfl)
          (p := ['-']) (by decide) (by decide)]
        rfl

theorem statsStep_components (a : DiffStats × Bool) (l : Str) :
    (statsStep a l).2 = (a.2 || fileHeaderMatch l)
    ∧ (statsStep a l).1.LinesAdded = a.1.LinesAdded
        + (if fileHeaderMatch l = false ∧ a.2 = true
            ∧ (startsWith l ['+'] && !startsWith l ("+++".toList)) = true
          then 1 else 0)
    ∧ (statsStep a l).1.LinesRemoved = a.1.LinesRemoved
        + (if fileHeaderMatch l = false ∧ a.2 = true
            ∧ (startsWith l ['+'] && !startsWith l ("+++".toList)) = false
            ∧ (startsWith l ['-'] && !startsWith l ("---".toList)) = true
          then 1 else 0) := by
  obtain ⟨st, inFile⟩ := a
  unfold statsStep
  by_cases hh : fileHeaderMatch l = true
  · simp [hh]
  · have hh' : fileHeaderMatch l = false := Bool.eq_false_iff.mpr hh
    rw [if_neg hh]
    by_cases hin : inFile = true
    · subst hin
      by_cases hp : (startsWith l ['+'] && !startsWith l ("+++".toList))
          = true
      · simp only [hh', hp, if_pos, and_true, true_and]
        refine ⟨by simp [hh'], ?_, ?_⟩
        · (repeat' split) <;> simp_all
        · (repeat' split) <;> simp_all
      · have hp' := Bool.eq_false_iff.mpr hp
        by_cases hm : (startsWith l ['-'] && !startsWith l ("---".toList))
            = true
        · simp only [hh', hp', hm]
          refine ⟨by simp [hh'], ?_, ?_⟩
          · (repeat' split) <;> simp_all
          · (repeat' split) <;> simp_all
        · have hm' := Bool.eq_false_iff.mpr hm
          simp only [hh', hp', hm']
          refine ⟨by simp [hh'], ?_, ?_⟩
          · (repeat' split) <;> simp_all
          · (repeat' split) <;> simp_all
    · have hin' : inFile = false := Bool.eq_false_iff.mpr hin
      subst hin'
      simp [hh']

theorem statsFold_filter :
    ∀ (L : List Str) (a b : DiffStats × Bool),
      a.1.LinesAdded = b.1.LinesAdded →
      a.1.LinesRemoved = b.1.LinesRemoved →
      a.2 = b.2 →
      (L.foldl statsStep a).1.LinesAdded
          = ((L.filter visPred).foldl statsStep b).1.LinesAdded
      ∧ (L.foldl statsStep a).1.LinesRemoved
          = ((L.filter visPred).foldl statsStep b).1.LinesRemoved
      ∧ (L.foldl statsStep a).2 = ((L.filter visPred).foldl statsStep b).2
      := by
  intro L
  induction L with
  | nil => intro a b h1 h2 h3; exact ⟨h1, h2, h3⟩
  | cons l rest ih =>
    intro a b h1 h2 h3
    obtain ⟨haF, haA, haR⟩ := statsStep_components a l
    by_cases hv : visPred l = true
    · rw [List.filter_cons_of_pos hv]
      simp only [List.foldl_cons]
      obtain ⟨hbF, hbA, hbR⟩ := statsStep_components b l
      apply ih
      · rw [haA, hbA, h1, h3]
      · rw [haR, hbR, h2, h3]
      · rw [haF, hbF, h3]
    · have hv' : visPred l = false := Bool.eq_false_iff.mpr hv
      rw [List.filter_cons_of_neg (by simp [hv'])]
      simp only [List.foldl_cons]
      obtain ⟨hc1, hc2, hc3⟩ := visPred_false_conds hv'
      apply ih
      · rw [haA, if_neg (by rw [hc2]; simp)]
        simpa using h1
      · rw [haR, if_neg (by rw [hc3]; simp)]
        simpa using h2
      · rw [haF, hc1]
        simpa using h3

theorem getDiffStats_eq_fold (d : Str) :
    getDiffStats d = ((linesOf d).foldl statsStep ({}, false)).1 := by
  unfold getDiffStats
  split
  · next hd => subst hd; rfl
  · rfl

theorem stats_vis (d : Str) :
    (getDiffStats d).LinesAdded
        = (((linesOf d).filter visPred).foldl
            statsStep ({}, false)).1.LinesAdded
    ∧ (getDiffStats d).LinesRemoved
        = (((linesOf d).filter visPred).foldl
            statsStep ({}, false)).1.LinesRemoved := by
  have h := statsFold_filter (linesOf d) ({}, false) ({}, false) rfl rfl rfl
  rw [getDiffStats_eq_fold]
  exact ⟨h.1, h.2.1⟩

/-- C4 counterexample: the two diffs compare as equal up to context but
have different added-line counts.  The first one's header line ends in a
carriage return: `GetDiffStats` (scanning the raw diff) sees a valid
`diff --git` header and counts the following `+x`, while the re-scan
inside `CompareDiffs` strips the carriage return, after which the header
no longer matches and the line disappears from the reduced form. -/
theorem compareDiffs_stats_counter :
    compareDiffs ("diff --git a/f b/\r\r\n+x\n".toList) ("+x\n".toList)
        = true
    ∧ (getDiffStats ("diff --git a/f b/\r\r\n+x\n".toList)).LinesAdded = 1
    ∧ (getDiffStats ("+x\n".toList)).LinesAdded = 0 := by
  decide

/-- C4 (amended): for diffs none of whose scanned lines ends with a
carriage return (in particular, carriage-return-free strings), if
`CompareDiffs` returns true then `GetDiffStats` agrees on both
`LinesAdded` and `LinesRemoved`. -/
theorem compareDiffs_stats (a b : Str)
    (ha : ∀ l ∈ linesOf a, l.getLast? ≠ some '\r')
    (hb : ∀ l ∈ linesOf b, l.getLast? ≠ some '\r')
    (h : compareDiffs a b = true) :
    (getDiffStats a).LinesAdded = (getDiffStats b).LinesAdded
    ∧ (getDiffStats a).LinesRemoved = (getDiffStats b).LinesRemoved := by
  have heq : removeContextLines (normalizeDiff a)
      = removeContextLines (normalizeDiff b) := of_decide_eq_true h
  have hlines := congrArg linesOf heq
  rw [linesOf_reduced a ha, linesOf_reduced b hb] at hlines
  have hvA : ∀ v ∈ (linesOf a).filter visPred, redLine v ≠ [] := by
    intro v hv hnil
    have h2 := List.of_mem_filter hv
    unfold visPred at h2
    rw [hnil] at h2
    simp at h2
  have hvB : ∀ v ∈ (linesOf b).filter visPred, redLine v ≠ [] := by
    intro v hv hnil
    have h2 := List.of_mem_filter hv
    unfold visPred at h2
    rw [hnil] at h2
    simp at h2
  have hvis : (linesOf a).filter visPred = (linesOf b).filter visPred := by
    rw [← parseVis_spec _ hvA, ← parseVis_spec _ hvB, hlines]
  obtain ⟨hA1, hA2⟩ := stats_vis a
  obtain ⟨hB1, hB2⟩ := stats_vis b
  rw [hA1, hA2, hB1, hB2, hvis]
  exact ⟨rfl, rfl⟩

/-- Witness for the amended C4 at two concrete diffs that differ only in
a context line. -/
theorem compareDiffs_stats_witness :
    (getDiffStats ("diff --git a/f b/f\n+x\n ctx\n".toList)).LinesAdded
        = (getDiffStats ("diff --git a/f b/f\n+x\n".toList)).LinesAdded
    ∧ (getDiffStats ("diff --git a/f b/f\n+x\n ctx\n".toList)).LinesRemoved
        = (getDiffStats ("diff --git a/f b/f\n+x\n".toList)).LinesRemoved :=
  compareDiffs_stats _ _ (by decide) (by decide) (by decide)

end Orchestrator
